import Mathlib

/-!
# Verification of the pagination-safe PDF re-assembly engine

Shallow embedding of the pagination core of `src/public/pdf-generator.js`
(`LatexPDFGenerator`): the page slicer `_computePageSlices`, the document
assembler `_buildPdfFromSlices`, and the control flow of the public entry
point `generatePDF`.

Conventions of the embedding:
* DOM/canvas pixel coordinates (`topPx`, `heightPx`, `yStartPx`, `yEndPx`,
  `pageSliceHeightPx`) are JavaScript numbers that are integral at the point
  of use (`Math.round`, `Math.floor`); they are modelled as `Int`.
* Physical PDF quantities in points (`usableWidthPt`, `usableHeightPt`,
  `pxToPt`, `margin`) are modelled as `ℚ`.
* The asynchronous external collaborators awaited by `generatePDF`
  (MathJax typesetting plus the settle delay, and the html2canvas capture)
  are modelled as success/failure oracles, and the DOM-measured card
  rectangles as an input list.
-/

namespace PdfGen

/-- One card's rectangle on the rendered surface in canvas pixels: an entry of
`cardRectsPx` in `_computePageSlices` (`topPx`/`heightPx` after scaling by
`rasterScale` and `Math.round`). -/
structure CardRect where
  topPx : Int
  heightPx : Int
deriving DecidableEq

/-- `cardBottomPx = c.topPx + c.heightPx` from the inner packing loop. -/
def cardBottomPx (c : CardRect) : Int := c.topPx + c.heightPx

/-- The four physical-geometry fields that `_computePageSlices` copies into
every slice object: `usableWidthPt`, `pxToPt`, `margin`, `usableHeightPt`. -/
structure SliceGeometry where
  usableWidthPt : ℚ
  pxToPt : ℚ
  margin : ℚ
  usableHeightPt : ℚ
deriving DecidableEq

/-- One element of the `slices` array built by `_computePageSlices`:
`{yStartPx, yEndPx, usableWidthPt, pxToPt, margin, usableHeightPt}`. -/
structure PageSlice where
  yStartPx : Int
  yEndPx : Int
  geo : SliceGeometry
deriving DecidableEq

/-- The inner-loop guard `nextUsedPx <= pageMaxPx`, where
`nextUsedPx = cardBottomPx - pageStartPx` and `pageMaxPx` is the page
capacity `pageSliceHeightPx`. -/
def fitsOnPage (cap pageStartPx : Int) (c : CardRect) : Bool :=
  decide (cardBottomPx c - pageStartPx ≤ cap)

/-- The running `lastCardBottomPx` variable: the bottom of the last card
absorbed, after absorbing `c` and then every card of the list in order. -/
def lastBottomPx (c : CardRect) : List CardRect → Int
  | [] => cardBottomPx c
  | d :: rest => lastBottomPx d rest

/-- The `while (currentIndex < cardRectsPx.length)` packing loop of
`_computePageSlices`, with `cap = pageSliceHeightPx` and `geo` the slice
geometry fields.  Each outer iteration starts a page at the top of the first
remaining card (`if (usedPx === 0) pageStartPx = cardTopPx`), then the inner
loop greedily absorbs consecutive cards while `fitsOnPage` holds and closes
the page `[pageStartPx, lastCardBottomPx]` at the first card that would
overflow.  If even the first card overflows (`usedPx === 0` at the end of
the inner loop), the card is emitted alone as the forced fallback slice
`[c.topPx, c.topPx + min(c.heightPx, cap)]`. -/
def computeSlicesLoop (cap : Int) (geo : SliceGeometry) : List CardRect → List PageSlice
  | [] => []
  | c :: rest =>
    if fitsOnPage cap c.topPx c then
      PageSlice.mk c.topPx (lastBottomPx c (rest.takeWhile (fitsOnPage cap c.topPx))) geo ::
        computeSlicesLoop cap geo (rest.dropWhile (fitsOnPage cap c.topPx))
    else
      PageSlice.mk c.topPx (c.topPx + min c.heightPx cap) geo ::
        computeSlicesLoop cap geo rest
termination_by l => l.length
decreasing_by
  · exact Nat.lt_succ_of_le (List.Sublist.length_le (List.dropWhile_sublist _))
  · exact Nat.lt_succ_of_le (Nat.le_refl _)

/-- The PDF page geometry inputs of `_computePageSlices`: the jsPDF page size
(`pdf.internal.pageSize.getWidth()/getHeight()` for the configured
unit/format/orientation) and the configured `pageMarginPt`. -/
structure SlicerOptions where
  pageWidthPt : ℚ
  pageHeightPt : ℚ
  pageMarginPt : ℚ
deriving DecidableEq

/-- The page capacity `pageSliceHeightPx = Math.floor(usableHeightPt / pxToPt)`
with `pxToPt = usableWidthPt / bigCanvas.width`. -/
def pageSliceHeightPx (opts : SlicerOptions) (canvasWidthPx : Int) : Int :=
  ⌊(opts.pageHeightPt - 2 * opts.pageMarginPt) /
    ((opts.pageWidthPt - 2 * opts.pageMarginPt) / (canvasWidthPx : ℚ))⌋

/-- `_computePageSlices`: computes the usable page geometry, the pixel-to-point
scale `pxToPt = usableWidthPt / bigCanvas.width`, the page capacity
`pageSliceHeightPx`, and packs the card rectangles into page slices. -/
def computePageSlices (opts : SlicerOptions) (canvasWidthPx : Int)
    (cardRectsPx : List CardRect) : List PageSlice :=
  computeSlicesLoop (pageSliceHeightPx opts canvasWidthPx)
    (SliceGeometry.mk (opts.pageWidthPt - 2 * opts.pageMarginPt)
      ((opts.pageWidthPt - 2 * opts.pageMarginPt) / (canvasWidthPx : ℚ))
      opts.pageMarginPt
      (opts.pageHeightPt - 2 * opts.pageMarginPt))
    cardRectsPx

/-- One `pdf.addImage(img, "PNG", margin, margin, usableWidthPt, sliceHeightPt)`
call of `_buildPdfFromSlices`: the image of one slice placed on its page, with
`sliceHeightPt = (yEndPx - yStartPx) * pxToPt`. -/
structure PlacedImage where
  xPt : ℚ
  yPt : ℚ
  widthPt : ℚ
  heightPt : ℚ
deriving DecidableEq

/-- The placement `_buildPdfFromSlices` performs for one slice. -/
def placeSliceImage (s : PageSlice) : PlacedImage :=
  PlacedImage.mk s.geo.margin s.geo.margin s.geo.usableWidthPt
    (((s.yEndPx - s.yStartPx : Int) : ℚ) * s.geo.pxToPt)

/-- `_buildPdfFromSlices`: one page with one placed image per slice, in slice
order (the first slice reuses the document's initial page, every later slice
is preceded by `pdf.addPage()`). -/
def buildPdfFromSlices (slices : List PageSlice) : List PlacedImage :=
  slices.map placeSliceImage

/-- One extracted item as handed to `generatePDF`: a JSON-shaped record
`{type, title?, content, page?}` (all fields are accessed defensively in
`_buildItemCard`, so all are modelled optional). -/
structure ContentItem where
  type : Option String
  title : Option String
  content : Option String
  page : Option Int
deriving DecidableEq

/-- The failures `generatePDF` can propagate: its own
`throw new Error("No items to export.")`, a rejection of the awaited MathJax
typesetting / settle delay, or a rejection of the awaited html2canvas
capture. -/
inductive GenError where
  | emptyInput
  | typesetFailure
  | captureFailure
deriving DecidableEq

/-- The observable outcome of one `generatePDF` run: its result, whether the
off-screen wrapper surface was appended to the render host
(`_buildContinuousDocument`), and whether it was removed again
(`this.renderHost.removeChild(wrapper)`). -/
structure RunTrace where
  result : Except GenError (List PageSlice)
  surfaceAllocated : Bool
  surfaceReleased : Bool

/-- The control flow of the public entry point `generatePDF(items)`:
the empty-input check happens before `_buildContinuousDocument` allocates the
wrapper surface; the awaited typesetting stage and the awaited capture stage
(modelled as the success oracles `typesetSucceeds` / `captureSucceeds`) can
each reject, and `generatePDF` has no try/finally, so a rejection propagates
at once; only after `_computePageSlices` returns is
`renderHost.removeChild(wrapper)` executed.  `cardRectsPx` stands for the
DOM-measured card rectangles. -/
def generatePDF (opts : SlicerOptions) (canvasWidthPx : Int) (items : List ContentItem)
    (typesetSucceeds captureSucceeds : Bool) (cardRectsPx : List CardRect) : RunTrace :=
  if items.length = 0 then
    RunTrace.mk (Except.error GenError.emptyInput) false false
  else if typesetSucceeds = false then
    RunTrace.mk (Except.error GenError.typesetFailure) true false
  else if captureSucceeds = false then
    RunTrace.mk (Except.error GenError.captureFailure) true false
  else
    RunTrace.mk (Except.ok (computePageSlices opts canvasWidthPx cardRectsPx)) true true

/-! ## Property-statement helpers

The layout invariants of §3 and §4.2 of the specification (blocks stacked in
order from the top of the surface with a constant gap between consecutive
blocks, positive measured heights), and the quantities the testable
properties speak about.  These are used only to state and prove properties of
the slicer, not by the embedded code. -/

/-- The layout-renderer invariant: starting at offset `t`, each card sits at
the running offset and the next card starts `g` pixels below its bottom. -/
def consecFromB (g : Int) : Int → List CardRect → Bool
  | _, [] => true
  | t, c :: rest => decide (c.topPx = t) && consecFromB g (cardBottomPx c + g) rest

/-- All measured card heights are positive (§3: `heightPx > 0`). -/
def allHeightsPos (l : List CardRect) : Bool :=
  l.all fun c => decide (0 < c.heightPx)

/-- No card is taller than the page capacity. -/
def allFitB (cap : Int) (l : List CardRect) : Bool :=
  l.all fun c => decide (c.heightPx ≤ cap)

/-- The layout offset after laying out the list starting at offset `t`. -/
def layoutEnd (g : Int) : Int → List CardRect → Int
  | t, [] => t
  | _, c :: rest => layoutEnd g (cardBottomPx c + g) rest

/-- The surface height in canvas pixels: the bottom of the last laid-out
block (the wrapper has no padding and the gap occurs only between blocks,
so the surface ends at the last card's bottom). -/
def totalSurfaceHeightPx : List CardRect → Int
  | [] => 0
  | c :: rest => lastBottomPx c rest

/-- Sum of the pixel heights of a slice list. -/
def sliceHeightsSum (ss : List PageSlice) : Int :=
  (ss.map fun s => s.yEndPx - s.yStartPx).sum

/-- The whole rectangle of card `c` lies inside the pixel range of slice `s`. -/
def sliceContains (s : PageSlice) (c : CardRect) : Bool :=
  decide (s.yStartPx ≤ c.topPx) && decide (cardBottomPx c ≤ s.yEndPx)

/-- Declarative description of one packed page after another: the slicer output
pairs the card list, split into consecutive non-empty groups, with the slice
list.  A `page` group `c :: taken` is laid out consecutively, fits the
capacity as a whole, ends the slice at its last card's bottom, and the first
card left over (if any) would have overflowed the page; an `oversized` group
is a single card taller than the capacity, emitted as the clipped fallback
slice.  In both cases the junction facts record where the remaining cards
start. -/
inductive Paginated (cap g : Int) : List CardRect → List PageSlice → Prop
  | nil : Paginated cap g [] []
  | page (geo : SliceGeometry) (c : CardRect) (taken rest : List CardRect)
      (ss : List PageSlice)
      (hfit : lastBottomPx c taken - c.topPx ≤ cap)
      (hconsec : consecFromB g c.topPx (c :: taken) = true)
      (hpos : allHeightsPos (c :: taken) = true)
      (hjoin : rest ≠ [] → cap < cardBottomPx (rest.headD c) - c.topPx)
      (hnext : rest ≠ [] → (rest.headD c).topPx = lastBottomPx c taken + g)
      (htail : Paginated cap g rest ss) :
      Paginated cap g (c :: (taken ++ rest))
        (PageSlice.mk c.topPx (lastBottomPx c taken) geo :: ss)
  | oversized (geo : SliceGeometry) (c : CardRect) (rest : List CardRect)
      (ss : List PageSlice)
      (hbig : cap < c.heightPx)
      (hpos : 0 < c.heightPx)
      (hjoin : rest ≠ [] → cap < cardBottomPx (rest.headD c) - c.topPx)
      (hnext : rest ≠ [] → (rest.headD c).topPx = cardBottomPx c + g)
      (htail : Paginated cap g rest ss) :
      Paginated cap g (c :: rest)
        (PageSlice.mk c.topPx (c.topPx + cap) geo :: ss)

/-- Concrete card rectangles of Scenario A of the specification: three 500px
blocks with the 24px inter-block gap, laid out from the top of the surface. -/
def cardsA : List CardRect :=
  [CardRect.mk 0 500, CardRect.mk 524 500, CardRect.mk 1048 500]

/-- Concrete slice-geometry fields used by the witnesses (usable width 820pt,
scale 1, margin 28pt, usable height 1100pt). -/
def geoW : SliceGeometry := SliceGeometry.mk 820 1 28 1100

/-! ## Basic lemmas about the layout predicates -/

theorem fitsOnPage_iff {cap ps : Int} {c : CardRect} :
    fitsOnPage cap ps c = true ↔ cardBottomPx c - ps ≤ cap := by
  simp [fitsOnPage]

theorem consecFromB_cons {g t : Int} {c : CardRect} {l : List CardRect} :
    consecFromB g t (c :: l) = true ↔
      c.topPx = t ∧ consecFromB g (cardBottomPx c + g) l = true := by
  simp [consecFromB]

theorem allHeightsPos_cons {c : CardRect} {l : List CardRect} :
    allHeightsPos (c :: l) = true ↔ 0 < c.heightPx ∧ allHeightsPos l = true := by
  simp [allHeightsPos]

theorem allHeightsPos_mem {l : List CardRect} (h : allHeightsPos l = true)
    {b : CardRect} (hb : b ∈ l) : 0 < b.heightPx := by
  have := List.all_eq_true.mp h b hb
  simpa using this

theorem allHeightsPos_append {l₁ l₂ : List CardRect} :
    allHeightsPos (l₁ ++ l₂) = true ↔
      allHeightsPos l₁ = true ∧ allHeightsPos l₂ = true := by
  simp [allHeightsPos]

theorem allFitB_mem {cap : Int} {l : List CardRect} (h : allFitB cap l = true)
    {b : CardRect} (hb : b ∈ l) : b.heightPx ≤ cap := by
  have := List.all_eq_true.mp h b hb
  simpa using this

theorem allFitB_append {cap : Int} {l₁ l₂ : List CardRect} :
    allFitB cap (l₁ ++ l₂) = true ↔
      allFitB cap l₁ = true ∧ allFitB cap l₂ = true := by
  simp [allFitB]

theorem allFitB_cons {cap : Int} {c : CardRect} {l : List CardRect} :
    allFitB cap (c :: l) = true ↔ c.heightPx ≤ cap ∧ allFitB cap l = true := by
  simp [allFitB]

theorem layoutEnd_lastBottom {g : Int} :
    ∀ (l : List CardRect) (c : CardRect),
      layoutEnd g (cardBottomPx c + g) l = lastBottomPx c l + g := by
  intro l
  induction l with
  | nil => intro c; simp [layoutEnd, lastBottomPx]
  | cons d t ih => intro c; simp [layoutEnd, lastBottomPx, ih d]

theorem consecFromB_append {g : Int} :
    ∀ {l₁ : List CardRect} {t : Int} {l₂ : List CardRect},
      consecFromB g t (l₁ ++ l₂) = true →
      consecFromB g t l₁ = true ∧ consecFromB g (layoutEnd g t l₁) l₂ = true := by
  intro l₁
  induction l₁ with
  | nil => intro t l₂ h; exact ⟨rfl, h⟩
  | cons c l₁ ih =>
      intro t l₂ h
      rw [List.cons_append, consecFromB_cons] at h
      obtain ⟨h1, h2⟩ := h
      obtain ⟨h3, h4⟩ := ih h2
      refine ⟨consecFromB_cons.mpr ⟨h1, h3⟩, ?_⟩
      simpa [layoutEnd] using h4

theorem consecFromB_le_top {g : Int} (hg : 0 ≤ g) :
    ∀ {l : List CardRect} {t : Int}, consecFromB g t l = true →
      allHeightsPos l = true → ∀ b ∈ l, t ≤ b.topPx := by
  intro l
  induction l with
  | nil => intro t _ _ b hb; cases hb
  | cons c r ih =>
      intro t hc hp b hb
      obtain ⟨h1, h2⟩ := consecFromB_cons.mp hc
      obtain ⟨hpc, hpr⟩ := allHeightsPos_cons.mp hp
      rcases List.mem_cons.mp hb with rfl | hb
      · omega
      · have := ih h2 hpr b hb
        have : cardBottomPx c + g ≤ b.topPx := this
        unfold cardBottomPx at this
        omega

theorem cardBottom_le_lastBottom {g : Int} (hg : 0 ≤ g) :
    ∀ {l : List CardRect} {c : CardRect},
      consecFromB g (cardBottomPx c + g) l = true → allHeightsPos l = true →
      cardBottomPx c ≤ lastBottomPx c l := by
  intro l
  induction l with
  | nil => intro c _ _; simp [lastBottomPx]
  | cons d t ih =>
      intro c hc hp
      obtain ⟨h1, h2⟩ := consecFromB_cons.mp hc
      obtain ⟨hpd, hpt⟩ := allHeightsPos_cons.mp hp
      have hd : cardBottomPx d ≤ lastBottomPx d t := ih h2 hpt
      show cardBottomPx c ≤ lastBottomPx d t
      unfold cardBottomPx at *
      omega

theorem mem_bottom_le_lastBottom {g : Int} (hg : 0 ≤ g) :
    ∀ {l : List CardRect} {c : CardRect},
      consecFromB g (cardBottomPx c + g) l = true → allHeightsPos l = true →
      ∀ b, (b = c ∨ b ∈ l) → cardBottomPx b ≤ lastBottomPx c l := by
  intro l
  induction l with
  | nil =>
      intro c _ _ b hb
      rcases hb with rfl | hb
      · simp [lastBottomPx]
      · cases hb
  | cons d t ih =>
      intro c hc hp b hb
      obtain ⟨h1, h2⟩ := consecFromB_cons.mp hc
      obtain ⟨hpd, hpt⟩ := allHeightsPos_cons.mp hp
      rcases hb with rfl | hb
      · exact cardBottom_le_lastBottom hg hc hp
      · rcases List.mem_cons.mp hb with rfl | hb
        · exact ih h2 hpt b (Or.inl rfl)
        · exact ih h2 hpt b (Or.inr hb)

theorem layout_trichotomy {g : Int} (hg : 0 ≤ g) :
    ∀ {l : List CardRect} {t : Int}, consecFromB g t l = true →
      allHeightsPos l = true →
      ∀ c ∈ l, ∀ d ∈ l,
        c = d ∨ cardBottomPx c ≤ d.topPx ∨ cardBottomPx d ≤ c.topPx := by
  intro l
  induction l with
  | nil => intro t _ _ c hc; cases hc
  | cons e r ih =>
      intro t hcons hp c hc d hd
      obtain ⟨h1, h2⟩ := consecFromB_cons.mp hcons
      obtain ⟨hpe, hpr⟩ := allHeightsPos_cons.mp hp
      rcases List.mem_cons.mp hc with hce | hcr
      · rcases List.mem_cons.mp hd with hde | hdr
        · exact Or.inl (hce.trans hde.symm)
        · refine Or.inr (Or.inl ?_)
          have hlb := consecFromB_le_top hg h2 hpr d hdr
          rw [hce]
          omega
      · rcases List.mem_cons.mp hd with hde | hdr
        · refine Or.inr (Or.inr ?_)
          have hlb := consecFromB_le_top hg h2 hpr c hcr
          rw [hde]
          omega
        · exact ih h2 hpr c hcr d hdr

theorem top_not_strictly_inside {g t : Int} (hg : 0 ≤ g) {l : List CardRect}
    (hc : consecFromB g t l = true) (hp : allHeightsPos l = true) :
    ∀ k ∈ l, ∀ d ∈ l, ¬(d.topPx < k.topPx ∧ k.topPx < cardBottomPx d) := by
  intro k hk d hd
  rcases layout_trichotomy hg hc hp k hk d hd with rfl | h | h
  · omega
  · have hkpos := allHeightsPos_mem hp hk
    unfold cardBottomPx at *
    omega
  · omega

theorem bottom_not_strictly_inside {g t : Int} (hg : 0 ≤ g) {l : List CardRect}
    (hc : consecFromB g t l = true) (hp : allHeightsPos l = true) :
    ∀ k ∈ l, ∀ d ∈ l,
      ¬(d.topPx < cardBottomPx k ∧ cardBottomPx k < cardBottomPx d) := by
  intro k hk d hd
  rcases layout_trichotomy hg hc hp k hk d hd with rfl | h | h
  · omega
  · omega
  · have hkpos := allHeightsPos_mem hp hk
    unfold cardBottomPx at *
    omega

theorem lastBottomPx_append_cons (d : CardRect) (l₂ : List CardRect) :
    ∀ (l₁ : List CardRect) (c : CardRect),
      lastBottomPx c (l₁ ++ d :: l₂) = lastBottomPx d l₂ := by
  intro l₁
  induction l₁ with
  | nil => intro c; simp [lastBottomPx]
  | cons e t ih => intro c; simpa [lastBottomPx] using ih e

theorem lastBottomPx_eq_some_bottom :
    ∀ (l : List CardRect) (c : CardRect),
      ∃ d, (d = c ∨ d ∈ l) ∧ lastBottomPx c l = cardBottomPx d := by
  intro l
  induction l with
  | nil => intro c; exact ⟨c, Or.inl rfl, rfl⟩
  | cons e t ih =>
      intro c
      obtain ⟨d, hd, he⟩ := ih e
      refine ⟨d, ?_, he⟩
      rcases hd with rfl | hd
      · exact Or.inr (List.mem_cons_self _ _)
      · exact Or.inr (List.mem_cons_of_mem _ hd)

theorem lastBottomPx_fits {cap ps : Int} :
    ∀ {l : List CardRect} {c : CardRect}, fitsOnPage cap ps c = true →
      (∀ d ∈ l, fitsOnPage cap ps d = true) → lastBottomPx c l - ps ≤ cap := by
  intro l
  induction l with
  | nil =>
      intro c hc _
      simpa [lastBottomPx] using fitsOnPage_iff.mp hc
  | cons d t ih =>
      intro c _ hall
      show lastBottomPx d t - ps ≤ cap
      exact ih (hall d (List.mem_cons_self _ _))
        (fun e he => hall e (List.mem_cons_of_mem _ he))

theorem dropWhile_head_false {p : CardRect → Bool} :
    ∀ {l l' : List CardRect} {c : CardRect}, l.dropWhile p = c :: l' → p c = false := by
  intro l
  induction l with
  | nil => intro l' c h; simp [List.dropWhile] at h
  | cons e t ih =>
      intro l' c h
      rw [List.dropWhile_cons] at h
      by_cases hp : p e = true
      · rw [if_pos hp] at h
        exact ih h
      · rw [if_neg hp] at h
        cases h
        exact Bool.eq_false_iff.mpr hp

theorem fitsOnPage_false_iff {cap ps : Int} {c : CardRect} :
    fitsOnPage cap ps c = false ↔ cap < cardBottomPx c - ps := by
  simp [fitsOnPage]
  omega

theorem computeSlicesLoop_nil (cap : Int) (geo : SliceGeometry) :
    computeSlicesLoop cap geo [] = [] := by
  simp [computeSlicesLoop]

theorem computeSlicesLoop_cons (cap : Int) (geo : SliceGeometry) (c : CardRect)
    (rest : List CardRect) :
    computeSlicesLoop cap geo (c :: rest) =
      if fitsOnPage cap c.topPx c then
        PageSlice.mk c.topPx (lastBottomPx c (rest.takeWhile (fitsOnPage cap c.topPx))) geo ::
          computeSlicesLoop cap geo (rest.dropWhile (fitsOnPage cap c.topPx))
      else
        PageSlice.mk c.topPx (c.topPx + min c.heightPx cap) geo ::
          computeSlicesLoop cap geo rest := by
  rw [computeSlicesLoop]

/-- The central structural theorem: on any card list satisfying the layout
invariants, the packing loop of `_computePageSlices` produces a slice list
related to the cards by `Paginated`. -/
theorem slicer_paginated (cap g : Int) (geo : SliceGeometry) (hg : 0 ≤ g) :
    ∀ (n : Nat) (cards : List CardRect) (t : Int), cards.length ≤ n →
      consecFromB g t cards = true → allHeightsPos cards = true →
      Paginated cap g cards (computeSlicesLoop cap geo cards) := by
  intro n
  induction n with
  | zero =>
      intro cards t hlen _ _
      have hnil : cards = [] := List.length_eq_zero.mp (Nat.le_zero.mp hlen)
      subst hnil
      rw [computeSlicesLoop_nil]
      exact Paginated.nil
  | succ n ih =>
      intro cards t hlen hcons hpos
      cases cards with
      | nil =>
          rw [computeSlicesLoop_nil]
          exact Paginated.nil
      | cons c rest =>
        have hlen' : rest.length ≤ n := by
          simpa [List.length_cons, Nat.succ_le_succ_iff] using hlen
        obtain ⟨hct, hcrest⟩ := consecFromB_cons.mp hcons
        obtain ⟨hpc, hprest⟩ := allHeightsPos_cons.mp hpos
        rw [computeSlicesLoop_cons]
        by_cases hfit : fitsOnPage cap c.topPx c = true
        · rw [if_pos hfit]
          obtain ⟨taken, htk⟩ : ∃ tk, rest.takeWhile (fitsOnPage cap c.topPx) = tk := ⟨_, rfl⟩
          obtain ⟨rem, hdp⟩ : ∃ dp, rest.dropWhile (fitsOnPage cap c.topPx) = dp := ⟨_, rfl⟩
          rw [htk, hdp]
          have hsplit : taken ++ rem = rest := by
            rw [← htk, ← hdp]
            exact List.takeWhile_append_dropWhile _ _
          have hcrest' : consecFromB g (cardBottomPx c + g) (taken ++ rem) = true := by
            rw [hsplit]
            exact hcrest
          have hconsplit := consecFromB_append hcrest'
          have hremconsec : consecFromB g (lastBottomPx c taken + g) rem = true := by
            have := hconsplit.2
            rwa [layoutEnd_lastBottom] at this
          have hpossplit : allHeightsPos taken = true ∧ allHeightsPos rem = true :=
            allHeightsPos_append.mp (by rw [hsplit]; exact hprest)
          have hremlen : rem.length ≤ n := by
            have : rem.length ≤ rest.length := by
              rw [← hdp]
              exact List.Sublist.length_le (List.dropWhile_sublist _)
            omega
          have hfit' : lastBottomPx c taken - c.topPx ≤ cap := by
            refine lastBottomPx_fits hfit ?_
            intro d hd
            exact List.mem_takeWhile_imp (htk ▸ hd)
          have hjoin' : rem ≠ [] → cap < cardBottomPx (rem.headD c) - c.topPx := by
            intro hne
            cases rem with
            | nil => exact absurd rfl hne
            | cons d r' =>
                have hpd : fitsOnPage cap c.topPx d = false := dropWhile_head_false hdp
                simpa [List.headD] using fitsOnPage_false_iff.mp hpd
          have hnext' : rem ≠ [] → (rem.headD c).topPx = lastBottomPx c taken + g := by
            intro hne
            cases rem with
            | nil => exact absurd rfl hne
            | cons d r' =>
                simpa [List.headD] using (consecFromB_cons.mp hremconsec).1
          have htail : Paginated cap g rem (computeSlicesLoop cap geo rem) :=
            ih rem (lastBottomPx c taken + g) hremlen hremconsec hpossplit.2
          rw [← hsplit]
          exact Paginated.page geo c taken rem _ hfit'
            (consecFromB_cons.mpr ⟨rfl, hconsplit.1⟩)
            (allHeightsPos_cons.mpr ⟨hpc, hpossplit.1⟩) hjoin' hnext' htail
        · rw [if_neg hfit]
          have hfitf : fitsOnPage cap c.topPx c = false := by
            cases h : fitsOnPage cap c.topPx c with
            | false => rfl
            | true => exact absurd h hfit
          have hbig : cap < c.heightPx := by
            have := fitsOnPage_false_iff.mp hfitf
            unfold cardBottomPx at this
            omega
          have hmin : min c.heightPx cap = cap := min_eq_right (le_of_lt hbig)
          rw [hmin]
          have hjoin' : rest ≠ [] → cap < cardBottomPx (rest.headD c) - c.topPx := by
            intro hne
            cases rest with
            | nil => exact absurd rfl hne
            | cons d r' =>
                obtain ⟨hdt, _⟩ := consecFromB_cons.mp hcrest
                have hpd : 0 < d.heightPx := (allHeightsPos_cons.mp hprest).1
                simp only [List.headD]
                unfold cardBottomPx at *
                omega
          have hnext' : rest ≠ [] → (rest.headD c).topPx = cardBottomPx c + g := by
            intro hne
            cases rest with
            | nil => exact absurd rfl hne
            | cons d r' =>
                simpa [List.headD] using (consecFromB_cons.mp hcrest).1
          exact Paginated.oversized geo c rest _ hbig hpc hjoin' hnext'
            (ih rest (cardBottomPx c + g) hlen' hcrest hprest)

theorem sliceContains_iff {s : PageSlice} {b : CardRect} :
    sliceContains s b = true ↔ s.yStartPx ≤ b.topPx ∧ cardBottomPx b ≤ s.yEndPx := by
  simp [sliceContains]

theorem paginated_nil_inv {cap g : Int} {ss : List PageSlice}
    (h : Paginated cap g [] ss) : ss = [] := by
  cases h
  rfl

theorem paginated_cons_head {cap g : Int} {cards : List CardRect}
    {s : PageSlice} {ss : List PageSlice} (h : Paginated cap g cards (s :: ss)) :
    ∃ c r, cards = c :: r ∧ s.yStartPx = c.topPx := by
  cases h with
  | page geo c taken rest ss' hfit hconsec hpos hjoin hnext htail =>
      exact ⟨c, taken ++ rest, rfl, rfl⟩
  | oversized geo c rest ss' hbig hpos hjoin hnext htail =>
      exact ⟨c, rest, rfl, rfl⟩

theorem paginated_start_ge {cap g : Int} (hg : 0 ≤ g) {cards : List CardRect}
    {ss : List PageSlice} (h : Paginated cap g cards ss) :
    ∀ s ∈ ss, ∀ c r, cards = c :: r → c.topPx ≤ s.yStartPx := by
  induction h with
  | nil => intro s hs; cases hs
  | page geo c taken rest ss hfit hconsec hpos hjoin hnext htail ih =>
      intro s hs c' r' hcr
      have hc' : c' = c := by
        injection hcr with h1 _
        exact h1.symm
      rw [hc']
      rcases List.mem_cons.mp hs with rfl | hs
      · exact le_refl _
      · cases rest with
        | nil =>
            rw [paginated_nil_inv htail] at hs
            cases hs
        | cons d r₂ =>
            have hd := ih s hs d r₂ rfl
            have hdt : d.topPx = lastBottomPx c taken + g := by
              simpa [List.headD] using hnext (by simp)
            have hcb : cardBottomPx c ≤ lastBottomPx c taken :=
              cardBottom_le_lastBottom hg (consecFromB_cons.mp hconsec).2
                (allHeightsPos_cons.mp hpos).2
            have hcpos : 0 < c.heightPx := (allHeightsPos_cons.mp hpos).1
            unfold cardBottomPx at hcb
            omega
  | oversized geo c rest ss hbig hpos hjoin hnext htail ih =>
      intro s hs c' r' hcr
      have hc' : c' = c := by
        injection hcr with h1 _
        exact h1.symm
      rw [hc']
      rcases List.mem_cons.mp hs with rfl | hs
      · exact le_refl _
      · cases rest with
        | nil =>
            rw [paginated_nil_inv htail] at hs
            cases hs
        | cons d r₂ =>
            have hd := ih s hs d r₂ rfl
            have hdt : d.topPx = cardBottomPx c + g := by
              simpa [List.headD] using hnext (by simp)
            unfold cardBottomPx at hdt
            omega

theorem paginated_boundaries {cap g : Int} {cards : List CardRect} {ss : List PageSlice}
    (h : Paginated cap g cards ss) :
    ∀ s ∈ ss,
      (∃ c ∈ cards, s.yStartPx = c.topPx) ∧
      ((∃ c ∈ cards, s.yEndPx = cardBottomPx c) ∨
        (∃ c ∈ cards, cap < c.heightPx ∧ s.yStartPx = c.topPx ∧
          s.yEndPx = c.topPx + cap)) := by
  induction h with
  | nil => intro s hs; cases hs
  | page geo c taken rest ss hfit hconsec hpos hjoin hnext htail ih =>
      intro s hs
      rcases List.mem_cons.mp hs with rfl | hs
      · refine ⟨⟨c, List.mem_cons_self _ _, rfl⟩, Or.inl ?_⟩
        obtain ⟨d, hd, he⟩ := lastBottomPx_eq_some_bottom taken c
        refine ⟨d, ?_, he⟩
        rcases hd with rfl | hd
        · exact List.mem_cons_self _ _
        · exact List.mem_cons_of_mem _ (List.mem_append_left _ hd)
      · obtain ⟨⟨c₁, hc₁, h1⟩, h2⟩ := ih s hs
        have hlift : ∀ x, x ∈ rest → x ∈ c :: (taken ++ rest) := fun x hx =>
          List.mem_cons_of_mem _ (List.mem_append_right _ hx)
        refine ⟨⟨c₁, hlift c₁ hc₁, h1⟩, ?_⟩
        rcases h2 with ⟨c₂, hc₂, h3⟩ | ⟨c₂, hc₂, h3⟩
        · exact Or.inl ⟨c₂, hlift c₂ hc₂, h3⟩
        · exact Or.inr ⟨c₂, hlift c₂ hc₂, h3⟩
  | oversized geo c rest ss hbig hpos hjoin hnext htail ih =>
      intro s hs
      rcases List.mem_cons.mp hs with rfl | hs
      · exact ⟨⟨c, List.mem_cons_self _ _, rfl⟩,
          Or.inr ⟨c, List.mem_cons_self _ _, hbig, rfl, rfl⟩⟩
      · obtain ⟨⟨c₁, hc₁, h1⟩, h2⟩ := ih s hs
        refine ⟨⟨c₁, List.mem_cons_of_mem _ hc₁, h1⟩, ?_⟩
        rcases h2 with ⟨c₂, hc₂, h3⟩ | ⟨c₂, hc₂, h3⟩
        · exact Or.inl ⟨c₂, List.mem_cons_of_mem _ hc₂, h3⟩
        · exact Or.inr ⟨c₂, List.mem_cons_of_mem _ hc₂, h3⟩

theorem paginated_groups {cap g : Int} {cards : List CardRect} {ss : List PageSlice}
    (h : Paginated cap g cards ss) :
    ∃ groups : List (List CardRect), groups.flatten = cards ∧
      List.Forall₂ (fun gp s => gp ≠ [] ∧ s.yStartPx = (gp.headD (CardRect.mk 0 0)).topPx)
        groups ss := by
  induction h with
  | nil => exact ⟨[], rfl, List.Forall₂.nil⟩
  | page geo c taken rest ss hfit hconsec hpos hjoin hnext htail ih =>
      obtain ⟨gs, hj, hf⟩ := ih
      refine ⟨(c :: taken) :: gs, ?_, List.Forall₂.cons ⟨by simp, by simp⟩ hf⟩
      simp [List.flatten_cons, hj]
  | oversized geo c rest ss hbig hpos hjoin hnext htail ih =>
      obtain ⟨gs, hj, hf⟩ := ih
      refine ⟨[c] :: gs, ?_, List.Forall₂.cons ⟨by simp, by simp⟩ hf⟩
      simp [List.flatten_cons, hj]

theorem paginated_chain_max {cap g : Int} {cards : List CardRect} {ss : List PageSlice}
    (h : Paginated cap g cards ss) :
    List.Chain' (fun s s' => ∃ c ∈ cards, s'.yStartPx = c.topPx ∧
      cap < cardBottomPx c - s.yStartPx) ss := by
  induction h with
  | nil => exact List.chain'_nil
  | page geo c taken rest ss hfit hconsec hpos hjoin hnext htail ih =>
      have hlift : ∀ x, x ∈ rest → x ∈ c :: (taken ++ rest) := fun x hx =>
        List.mem_cons_of_mem _ (List.mem_append_right _ hx)
      have ih' : List.Chain' (fun s s' => ∃ d ∈ c :: (taken ++ rest),
          s'.yStartPx = d.topPx ∧ cap < cardBottomPx d - s.yStartPx) ss :=
        List.Chain'.imp (fun a b ⟨d, hd, h1, h2⟩ => ⟨d, hlift d hd, h1, h2⟩) ih
      cases ss with
      | nil => simp
      | cons s' ss₂ =>
          refine List.chain'_cons.mpr ⟨?_, ih'⟩
          obtain ⟨d, r₂, hrest, hstart⟩ := paginated_cons_head htail
          subst hrest
          refine ⟨d, hlift d (List.mem_cons_self _ _), hstart, ?_⟩
          have := hjoin (by simp)
          simpa [List.headD] using this
  | oversized geo c rest ss hbig hpos hjoin hnext htail ih =>
      have ih' : List.Chain' (fun s s' => ∃ d ∈ c :: rest,
          s'.yStartPx = d.topPx ∧ cap < cardBottomPx d - s.yStartPx) ss :=
        List.Chain'.imp
          (fun a b ⟨d, hd, h1, h2⟩ => ⟨d, List.mem_cons_of_mem _ hd, h1, h2⟩) ih
      cases ss with
      | nil => simp
      | cons s' ss₂ =>
          refine List.chain'_cons.mpr ⟨?_, ih'⟩
          obtain ⟨d, r₂, hrest, hstart⟩ := paginated_cons_head htail
          subst hrest
          refine ⟨d, List.mem_cons_of_mem _ (List.mem_cons_self _ _), hstart, ?_⟩
          have := hjoin (by simp)
          simpa [List.headD] using this

theorem paginated_chain_gap {cap g : Int} {cards : List CardRect} {ss : List PageSlice}
    (h : Paginated cap g cards ss) (hfitall : allFitB cap cards = true) :
    List.Chain' (fun s s' => s'.yStartPx = s.yEndPx + g) ss := by
  induction h with
  | nil => exact List.chain'_nil
  | page geo c taken rest ss hfit hconsec hpos hjoin hnext htail ih =>
      have hfr : allFitB cap rest = true :=
        (allFitB_append.mp (allFitB_cons.mp hfitall).2).2
      have ih' := ih hfr
      cases ss with
      | nil => simp
      | cons s' ss₂ =>
          refine List.chain'_cons.mpr ⟨?_, ih'⟩
          obtain ⟨d, r₂, hrest, hstart⟩ := paginated_cons_head htail
          subst hrest
          have := hnext (by simp)
          simp only [List.headD] at this
          rw [hstart]
          exact this
  | oversized geo c rest ss hbig hpos hjoin hnext htail ih =>
      exact absurd (allFitB_mem hfitall (List.mem_cons_self _ _)) (not_le.mpr hbig)

theorem sliceHeightsSum_cons (s : PageSlice) (ss : List PageSlice) :
    sliceHeightsSum (s :: ss) = (s.yEndPx - s.yStartPx) + sliceHeightsSum ss := by
  simp [sliceHeightsSum]

theorem paginated_sum {cap g : Int} {cards : List CardRect} {ss : List PageSlice}
    (h : Paginated cap g cards ss) (hfitall : allFitB cap cards = true)
    (hne : cards ≠ []) :
    sliceHeightsSum ss + g * ((ss.length : Int) - 1) =
      totalSurfaceHeightPx cards - (cards.headD (CardRect.mk 0 0)).topPx := by
  induction h with
  | nil => exact absurd rfl hne
  | page geo c taken rest ss hfit hconsec hpos hjoin hnext htail ih =>
      cases rest with
      | nil =>
          have hssnil : ss = [] := paginated_nil_inv htail
          subst hssnil
          simp [sliceHeightsSum, totalSurfaceHeightPx]
      | cons d r₂ =>
          have hd_top : d.topPx = lastBottomPx c taken + g := by
            simpa [List.headD] using hnext (by simp)
          have hfit_rest : allFitB cap (d :: r₂) = true :=
            (allFitB_append.mp (allFitB_cons.mp hfitall).2).2
          have ih' := ih hfit_rest (by simp)
          simp only [totalSurfaceHeightPx, List.headD] at ih'
          have htot : totalSurfaceHeightPx (c :: (taken ++ d :: r₂)) = lastBottomPx d r₂ := by
            simp only [totalSurfaceHeightPx]
            exact lastBottomPx_append_cons d r₂ taken c
          rw [htot, sliceHeightsSum_cons]
          simp only [List.headD, List.length_cons]
          have hcast : ((ss.length + 1 : Nat) : Int) - 1 = ((ss.length : Int) - 1) + 1 := by
            push_cast
            ring
          rw [hcast]
          have hmul : g * (((ss.length : Int) - 1) + 1) = g * ((ss.length : Int) - 1) + g := by
            ring
          rw [hmul]
          linarith [ih']
  | oversized geo c rest ss hbig hpos hjoin hnext htail ih =>
      exact absurd (allFitB_mem hfitall (List.mem_cons_self _ _)) (not_le.mpr hbig)

theorem paginated_height_pos {cap g : Int} (hg : 0 ≤ g) {cards : List CardRect}
    {ss : List PageSlice} (h : Paginated cap g cards ss)
    (hfitall : allFitB cap cards = true) :
    ∀ s ∈ ss, 0 < s.yEndPx - s.yStartPx := by
  induction h with
  | nil => intro s hs; cases hs
  | page geo c taken rest ss hfit hconsec hpos hjoin hnext htail ih =>
      intro s hs
      rcases List.mem_cons.mp hs with rfl | hs
      · have hcb : cardBottomPx c ≤ lastBottomPx c taken :=
          cardBottom_le_lastBottom hg (consecFromB_cons.mp hconsec).2
            (allHeightsPos_cons.mp hpos).2
        have hcpos : 0 < c.heightPx := (allHeightsPos_cons.mp hpos).1
        unfold cardBottomPx at hcb
        simp only
        omega
      · exact ih ((allFitB_append.mp (allFitB_cons.mp hfitall).2).2) s hs
  | oversized geo c rest ss hbig hpos hjoin hnext htail ih =>
      exact absurd (allFitB_mem hfitall (List.mem_cons_self _ _)) (not_le.mpr hbig)

theorem paginated_count_one {cap g : Int} (hg : 0 ≤ g) {cards : List CardRect}
    {ss : List PageSlice} (h : Paginated cap g cards ss) :
    ∀ t, consecFromB g t cards = true → allHeightsPos cards = true →
      allFitB cap cards = true →
      ∀ b ∈ cards, (ss.filter (fun s => sliceContains s b)).length = 1 := by
  induction h with
  | nil => intro t _ _ _ b hb; cases hb
  | page geo c taken rest ss hfit hconsec hpos hjoin hnext htail ih =>
      intro t hconsall hposall hfitall b hb
      obtain ⟨hct, hcrest⟩ := consecFromB_cons.mp hconsall
      have hsplit := consecFromB_append hcrest
      have hconsrest : consecFromB g (lastBottomPx c taken + g) rest = true := by
        have := hsplit.2
        rwa [layoutEnd_lastBottom] at this
      have hposrest : allHeightsPos rest = true :=
        (allHeightsPos_append.mp (allHeightsPos_cons.mp hposall).2).2
      have hfitrest : allFitB cap rest = true :=
        (allFitB_append.mp (allFitB_cons.mp hfitall).2).2
      rcases List.mem_cons.mp hb with rfl | hb'
      · -- b is the first card of this page
        have hcont : sliceContains (PageSlice.mk b.topPx (lastBottomPx b taken) geo) b = true :=
          sliceContains_iff.mpr ⟨le_refl _,
            cardBottom_le_lastBottom hg (consecFromB_cons.mp hconsec).2
              (allHeightsPos_cons.mp hpos).2⟩
        rw [List.filter_cons, if_pos hcont, List.length_cons]
        have hnil : ss.filter (fun s => sliceContains s b) = [] := by
          rw [List.filter_eq_nil_iff]
          intro s' hs'
          cases rest with
          | nil =>
              rw [paginated_nil_inv htail] at hs'
              cases hs'
          | cons d r₂ =>
              have hds : d.topPx ≤ s'.yStartPx := paginated_start_ge hg htail s' hs' d r₂ rfl
              have hdt : d.topPx = lastBottomPx b taken + g := by
                simpa [List.headD] using hnext (by simp)
              have hbb : cardBottomPx b ≤ lastBottomPx b taken :=
                cardBottom_le_lastBottom hg (consecFromB_cons.mp hconsec).2
                  (allHeightsPos_cons.mp hpos).2
              have hbpos : 0 < b.heightPx := (allHeightsPos_cons.mp hpos).1
              simp only [sliceContains_iff, not_and, not_le]
              intro hstart
              unfold cardBottomPx at hbb
              omega
        rw [hnil]
        rfl
      · rcases List.mem_append.mp hb' with hbtk | hbrest
        · -- b is a later card of this page
          have hcont : sliceContains (PageSlice.mk c.topPx (lastBottomPx c taken) geo) b = true := by
            refine sliceContains_iff.mpr ⟨?_, ?_⟩
            · exact consecFromB_le_top hg hconsec hpos b (List.mem_cons_of_mem _ hbtk)
            · exact mem_bottom_le_lastBottom hg (consecFromB_cons.mp hconsec).2
                (allHeightsPos_cons.mp hpos).2 b (Or.inr hbtk)
          rw [List.filter_cons, if_pos hcont, List.length_cons]
          have hnil : ss.filter (fun s => sliceContains s b) = [] := by
            rw [List.filter_eq_nil_iff]
            intro s' hs'
            cases rest with
            | nil =>
                rw [paginated_nil_inv htail] at hs'
                cases hs'
            | cons d r₂ =>
                have hds : d.topPx ≤ s'.yStartPx := paginated_start_ge hg htail s' hs' d r₂ rfl
                have hdt : d.topPx = lastBottomPx c taken + g := by
                  simpa [List.headD] using hnext (by simp)
                have hbb : cardBottomPx b ≤ lastBottomPx c taken :=
                  mem_bottom_le_lastBottom hg (consecFromB_cons.mp hconsec).2
                    (allHeightsPos_cons.mp hpos).2 b (Or.inr hbtk)
                have hbpos : 0 < b.heightPx :=
                  allHeightsPos_mem hpos (List.mem_cons_of_mem _ hbtk)
                simp only [sliceContains_iff, not_and, not_le]
                intro hstart
                unfold cardBottomPx at hbb
                omega
          rw [hnil]
          rfl
        · -- b belongs to a later page
          have hcont : sliceContains (PageSlice.mk c.topPx (lastBottomPx c taken) geo) b = false := by
            have hble : lastBottomPx c taken + g ≤ b.topPx :=
              consecFromB_le_top hg hconsrest hposrest b hbrest
            have hbpos : 0 < b.heightPx := allHeightsPos_mem hposrest hbrest
            rw [Bool.eq_false_iff]
            intro hc
            obtain ⟨h1, h2⟩ := sliceContains_iff.mp hc
            simp only at h2
            unfold cardBottomPx at h2
            omega
          rw [List.filter_cons, if_neg (by simp [hcont])]
          exact ih (lastBottomPx c taken + g) hconsrest hposrest hfitrest b hbrest
  | oversized geo c rest ss hbig hpos hjoin hnext htail ih =>
      intro t hconsall hposall hfitall b hb
      exact absurd (allFitB_mem hfitall (List.mem_cons_self _ _)) (not_le.mpr hbig)

theorem paginated_oversized_mem {cap g : Int} (hg : 0 ≤ g) {cards : List CardRect}
    {ss : List PageSlice} (h : Paginated cap g cards ss) :
    ∀ b ∈ cards, cap < b.heightPx →
      ∃ s ∈ ss, s.yStartPx = b.topPx ∧ s.yEndPx = b.topPx + cap := by
  induction h with
  | nil => intro b hb; cases hb
  | page geo c taken rest ss hfit hconsec hpos hjoin hnext htail ih =>
      intro b hb hbig
      rcases List.mem_cons.mp hb with rfl | hb'
      · exfalso
        have hbb : cardBottomPx b ≤ lastBottomPx b taken :=
          cardBottom_le_lastBottom hg (consecFromB_cons.mp hconsec).2
            (allHeightsPos_cons.mp hpos).2
        unfold cardBottomPx at hbb
        omega
      · rcases List.mem_append.mp hb' with hbtk | hbrest
        · exfalso
          have h1 : c.topPx ≤ b.topPx :=
            consecFromB_le_top hg hconsec hpos b (List.mem_cons_of_mem _ hbtk)
          have h2 : cardBottomPx b ≤ lastBottomPx c taken :=
            mem_bottom_le_lastBottom hg (consecFromB_cons.mp hconsec).2
              (allHeightsPos_cons.mp hpos).2 b (Or.inr hbtk)
          unfold cardBottomPx at h2
          omega
        · obtain ⟨s, hs, h1, h2⟩ := ih b hbrest hbig
          exact ⟨s, List.mem_cons_of_mem _ hs, h1, h2⟩
  | oversized geo c rest ss hbig' hpos hjoin hnext htail ih =>
      intro b hb hbig
      rcases List.mem_cons.mp hb with rfl | hb'
      · exact ⟨_, List.mem_cons_self _ _, rfl, rfl⟩
      · obtain ⟨s, hs, h1, h2⟩ := ih b hb' hbig
        exact ⟨s, List.mem_cons_of_mem _ hs, h1, h2⟩

theorem computeSlicesLoop_length_le (cap : Int) (geo : SliceGeometry) :
    ∀ (n : Nat) (cards : List CardRect), cards.length ≤ n →
      (computeSlicesLoop cap geo cards).length ≤ cards.length := by
  intro n
  induction n with
  | zero =>
      intro cards hlen
      have hnil : cards = [] := List.length_eq_zero.mp (Nat.le_zero.mp hlen)
      subst hnil
      simp [computeSlicesLoop_nil]
  | succ n ih =>
      intro cards hlen
      cases cards with
      | nil => simp [computeSlicesLoop_nil]
      | cons c rest =>
          have hlen' : rest.length ≤ n := by
            simpa [List.length_cons, Nat.succ_le_succ_iff] using hlen
          rw [computeSlicesLoop_cons]
          by_cases hfit : fitsOnPage cap c.topPx c = true
          · rw [if_pos hfit]
            have h1 : (rest.dropWhile (fitsOnPage cap c.topPx)).length ≤ rest.length :=
              List.Sublist.length_le (List.dropWhile_sublist _)
            have h2 := ih (rest.dropWhile (fitsOnPage cap c.topPx)) (by omega)
            simp only [List.length_cons]
            omega
          · rw [if_neg hfit]
            have h2 := ih rest hlen'
            simp only [List.length_cons]
            omega

theorem computeSlicesLoop_ne_nil (cap : Int) (geo : SliceGeometry) (c : CardRect)
    (rest : List CardRect) : computeSlicesLoop cap geo (c :: rest) ≠ [] := by
  rw [computeSlicesLoop_cons]
  split <;> simp

theorem computeSlicesLoop_start_mem (cap : Int) (geo : SliceGeometry) :
    ∀ (n : Nat) (cards : List CardRect), cards.length ≤ n →
      ∀ s ∈ computeSlicesLoop cap geo cards, ∃ b ∈ cards, s.yStartPx = b.topPx := by
  intro n
  induction n with
  | zero =>
      intro cards hlen
      have hnil : cards = [] := List.length_eq_zero.mp (Nat.le_zero.mp hlen)
      subst hnil
      rw [computeSlicesLoop_nil]
      intro s hs
      cases hs
  | succ n ih =>
      intro cards hlen
      cases cards with
      | nil =>
          rw [computeSlicesLoop_nil]
          intro s hs
          cases hs
      | cons c rest =>
          have hlen' : rest.length ≤ n := by
            simpa [List.length_cons, Nat.succ_le_succ_iff] using hlen
          rw [computeSlicesLoop_cons]
          by_cases hfit : fitsOnPage cap c.topPx c = true
          · rw [if_pos hfit]
            intro s hs
            rcases List.mem_cons.mp hs with rfl | hs
            · exact ⟨c, List.mem_cons_self _ _, rfl⟩
            · have hrem : (rest.dropWhile (fitsOnPage cap c.topPx)).length ≤ n := by
                have h0 : (rest.dropWhile (fitsOnPage cap c.topPx)).length ≤ rest.length :=
                  List.Sublist.length_le (List.dropWhile_sublist _)
                omega
              obtain ⟨b, hb, hsb⟩ := ih _ hrem s hs
              exact ⟨b, List.mem_cons_of_mem _
                (List.Sublist.subset (List.dropWhile_sublist _) hb), hsb⟩
          · rw [if_neg hfit]
            intro s hs
            rcases List.mem_cons.mp hs with rfl | hs
            · exact ⟨c, List.mem_cons_self _ _, rfl⟩
            · obtain ⟨b, hb, hsb⟩ := ih rest hlen' s hs
              exact ⟨b, List.mem_cons_of_mem _ hb, hsb⟩

theorem computeSlicesLoop_geo (cap : Int) (geo : SliceGeometry) :
    ∀ (n : Nat) (cards : List CardRect), cards.length ≤ n →
      ∀ s ∈ computeSlicesLoop cap geo cards, s.geo = geo := by
  intro n
  induction n with
  | zero =>
      intro cards hlen
      have hnil : cards = [] := List.length_eq_zero.mp (Nat.le_zero.mp hlen)
      subst hnil
      rw [computeSlicesLoop_nil]
      intro s hs
      cases hs
  | succ n ih =>
      intro cards hlen
      cases cards with
      | nil =>
          rw [computeSlicesLoop_nil]
          intro s hs
          cases hs
      | cons c rest =>
          have hlen' : rest.length ≤ n := by
            simpa [List.length_cons, Nat.succ_le_succ_iff] using hlen
          rw [computeSlicesLoop_cons]
          by_cases hfit : fitsOnPage cap c.topPx c = true
          · rw [if_pos hfit]
            intro s hs
            rcases List.mem_cons.mp hs with rfl | hs
            · rfl
            · have hrem : (rest.dropWhile (fitsOnPage cap c.topPx)).length ≤ n := by
                have h0 : (rest.dropWhile (fitsOnPage cap c.topPx)).length ≤ rest.length :=
                  List.Sublist.length_le (List.dropWhile_sublist _)
                omega
              exact ih _ hrem s hs
          · rw [if_neg hfit]
            intro s hs
            rcases List.mem_cons.mp hs with rfl | hs
            · rfl
            · exact ih rest hlen' s hs

/-! ## The claims -/

/-- C1: for every block sequence satisfying the layout-renderer invariants
(consecutive layout from the top of the surface with gap `g ≥ 0`, positive
heights) and any page capacity, no slice produced by the packing loop of
`_computePageSlices` has a pixel range that starts or ends strictly inside a
block's rectangle — except that a slice's end may sit inside a block exactly
in the documented oversized-block fallback case; moreover the slices
correspond one-to-one to a partition of the block list into consecutive
non-empty groups, and every slice starts exactly at the top edge of the first
block of its group, i.e. at the top of the first not-yet-placed block. -/
theorem claim_C1_slice_boundaries (g cap : Int) (geo : SliceGeometry)
    (cards : List CardRect) (hg : 0 ≤ g) (hc : consecFromB g 0 cards = true)
    (hp : allHeightsPos cards = true) :
    (∀ s ∈ computeSlicesLoop cap geo cards,
      (∀ d ∈ cards, ¬(d.topPx < s.yStartPx ∧ s.yStartPx < cardBottomPx d)) ∧
      ((∀ d ∈ cards, ¬(d.topPx < s.yEndPx ∧ s.yEndPx < cardBottomPx d)) ∨
        (∃ c ∈ cards, cap < c.heightPx ∧ s.yStartPx = c.topPx ∧
          s.yEndPx = c.topPx + cap))) ∧
    (∃ groups : List (List CardRect), groups.flatten = cards ∧
      List.Forall₂
        (fun gp s => gp ≠ [] ∧ s.yStartPx = (gp.headD (CardRect.mk 0 0)).topPx)
        groups (computeSlicesLoop cap geo cards)) := by
  have hpag := slicer_paginated cap g geo hg cards.length cards 0 (le_refl _) hc hp
  constructor
  · intro s hs
    obtain ⟨⟨c₁, hc₁, h1⟩, h2⟩ := paginated_boundaries hpag s hs
    constructor
    · intro d hd hin
      rw [h1] at hin
      exact top_not_strictly_inside hg hc hp c₁ hc₁ d hd hin
    · rcases h2 with ⟨c₂, hc₂, h3⟩ | hover
      · left
        intro d hd hin
        rw [h3] at hin
        exact bottom_not_strictly_inside hg hc hp c₂ hc₂ d hd hin
      · exact Or.inr hover
  · exact paginated_groups hpag

/-- C2 (counterexample): the claimed partition/round-trip property fails.  Two
500px blocks with a 24px gap and capacity 500px land on two pages; the page
break realigns to the second block's top, so the 24 gap pixels between the
pages belong to no slice and the slice heights sum to 1000 while the surface
is 1024px tall. -/
theorem claim_C2_counterexample :
    sliceHeightsSum (computePageSlices (SlicerOptions.mk 876 556 28) 820
        [CardRect.mk 0 500, CardRect.mk 524 500]) ≠
      totalSurfaceHeightPx [CardRect.mk 0 500, CardRect.mk 524 500] := by
  have hcap : pageSliceHeightPx (SlicerOptions.mk 876 556 28) 820 = 500 := by
    unfold pageSliceHeightPx
    norm_num
  unfold computePageSlices
  rw [hcap]
  simp [computeSlicesLoop_cons, computeSlicesLoop_nil, fitsOnPage, cardBottomPx,
    lastBottomPx, sliceHeightsSum, totalSurfaceHeightPx, List.takeWhile, List.dropWhile]

/-- C2 (amended): for every non-empty block sequence satisfying the layout
invariants in which no block exceeds the capacity, every block appears in
exactly one slice, the slices are ordered with each page starting exactly
`g` pixels after the previous page's end and have positive heights, and the
slice heights sum to the total surface height minus the inter-page gaps:
`sum + g * (sliceCount - 1) = totalSurfaceHeightPx`. -/
theorem claim_C2_amended (g cap : Int) (geo : SliceGeometry) (cards : List CardRect)
    (hg : 0 ≤ g) (hc : consecFromB g 0 cards = true) (hp : allHeightsPos cards = true)
    (hf : allFitB cap cards = true) (hne : cards ≠ []) :
    sliceHeightsSum (computeSlicesLoop cap geo cards) +
        g * (((computeSlicesLoop cap geo cards).length : Int) - 1) =
      totalSurfaceHeightPx cards ∧
    (∀ b ∈ cards,
      ((computeSlicesLoop cap geo cards).filter (fun s => sliceContains s b)).length = 1) ∧
    List.Chain' (fun s s' => s'.yStartPx = s.yEndPx + g) (computeSlicesLoop cap geo cards) ∧
    (∀ s ∈ computeSlicesLoop cap geo cards, 0 < s.yEndPx - s.yStartPx) := by
  have hpag := slicer_paginated cap g geo hg cards.length cards 0 (le_refl _) hc hp
  refine ⟨?_, fun b hb => paginated_count_one hg hpag 0 hc hp hf b hb,
    paginated_chain_gap hpag hf, paginated_height_pos hg hpag hf⟩
  have hsum := paginated_sum hpag hf hne
  have hhead : (cards.headD (CardRect.mk 0 0)).topPx = 0 := by
    cases cards with
    | nil => exact absurd rfl hne
    | cons c r => simpa [List.headD] using (consecFromB_cons.mp hc).1
  rw [hhead, sub_zero] at hsum
  exact hsum

/-- C3: the slicer is greedy and maximally packed: between any two consecutive
slices, the block that starts the later page (whose top edge is the later
slice's start) would have overflowed the earlier page — its bottom lies more
than `cap` pixels below the earlier page's start.  Scenario A of the
specification is the witness. -/
theorem claim_C3_greedy_maximal (g cap : Int) (geo : SliceGeometry)
    (cards : List CardRect) (hg : 0 ≤ g) (hc : consecFromB g 0 cards = true)
    (hp : allHeightsPos cards = true) :
    List.Chain' (fun s s' => ∃ c ∈ cards, s'.yStartPx = c.topPx ∧
      cap < cardBottomPx c - s.yStartPx) (computeSlicesLoop cap geo cards) :=
  paginated_chain_max (slicer_paginated cap g geo hg cards.length cards 0 (le_refl _) hc hp)

/-- C5: any block taller than the page capacity is emitted alone as a clipped
fallback slice running from its top edge to exactly `cap` pixels below it, and
no block (including the clipped one) fits wholly inside that slice. -/
theorem claim_C5_oversized_clipped (g cap : Int) (geo : SliceGeometry)
    (cards : List CardRect) (hg : 0 ≤ g) (hc : consecFromB g 0 cards = true)
    (hp : allHeightsPos cards = true) (b : CardRect) (hb : b ∈ cards)
    (hbig : cap < b.heightPx) :
    ∃ s ∈ computeSlicesLoop cap geo cards, s.yStartPx = b.topPx ∧
      s.yEndPx = b.topPx + cap ∧
      ∀ d ∈ cards, ¬(s.yStartPx ≤ d.topPx ∧ cardBottomPx d ≤ s.yEndPx) := by
  have hpag := slicer_paginated cap g geo hg cards.length cards 0 (le_refl _) hc hp
  obtain ⟨s, hs, h1, h2⟩ := paginated_oversized_mem hg hpag b hb hbig
  refine ⟨s, hs, h1, h2, ?_⟩
  intro d hd hdc
  obtain ⟨hd1, hd2⟩ := hdc
  rw [h1] at hd1
  rw [h2] at hd2
  rcases layout_trichotomy hg hc hp b hb d hd with heq | hor | hor
  · rw [← heq] at hd2
    unfold cardBottomPx at hd2
    omega
  · have hdpos := allHeightsPos_mem hp hd
    unfold cardBottomPx at hor hd2
    omega
  · have hdpos := allHeightsPos_mem hp hd
    unfold cardBottomPx at hor hd2
    omega

/-- C10: the slicer makes progress and is total: every outer iteration
consumes at least one card, so the number of slices never exceeds the number
of blocks, the output is non-empty whenever the input is, and every slice
starts at some block's top edge (so contains at least the whole or clipped
prefix block of its page). -/
theorem claim_C10_progress (cap : Int) (geo : SliceGeometry) (cards : List CardRect) :
    (computeSlicesLoop cap geo cards).length ≤ cards.length ∧
    (cards = [] ∨ computeSlicesLoop cap geo cards ≠ []) ∧
    (∀ s ∈ computeSlicesLoop cap geo cards, ∃ b ∈ cards, s.yStartPx = b.topPx) := by
  refine ⟨computeSlicesLoop_length_le cap geo cards.length cards (le_refl _), ?_,
    computeSlicesLoop_start_mem cap geo cards.length cards (le_refl _)⟩
  cases cards with
  | nil => exact Or.inl rfl
  | cons c rest => exact Or.inr (computeSlicesLoop_ne_nil cap geo c rest)

theorem computeSlicesLoop_nonpos_cap (cap : Int) (geo : SliceGeometry) (hcap : cap ≤ 0) :
    ∀ (cards : List CardRect), allHeightsPos cards = true →
      computeSlicesLoop cap geo cards =
        cards.map (fun c => PageSlice.mk c.topPx (c.topPx + min c.heightPx cap) geo) := by
  intro cards
  induction cards with
  | nil =>
      intro _
      rw [computeSlicesLoop_nil]
      rfl
  | cons c rest ih =>
      intro hp
      obtain ⟨hpc, hpr⟩ := allHeightsPos_cons.mp hp
      rw [computeSlicesLoop_cons]
      have hfit : fitsOnPage cap c.topPx c = false := by
        rw [fitsOnPage_false_iff]
        unfold cardBottomPx
        omega
      rw [if_neg (by simp [hfit]), List.map_cons, ih hpr]

/-- C4 (counterexample): a configuration whose computed `pageCapacityPx` is 0
(page height 56pt with 28pt margins, so the usable height is 0) does not make
the run fail: there is no `DegenerateGeometryError` (or any capacity check) in
the code.  `generatePDF` returns normally and the slicer emits a degenerate
zero-height fallback slice for the single 500px block. -/
theorem claim_C4_counterexample :
    pageSliceHeightPx (SlicerOptions.mk 876 56 28) 820 = 0 ∧
    (generatePDF (SlicerOptions.mk 876 56 28) 820
        [ContentItem.mk (some "theorem") none (some "x") none] true true
        [CardRect.mk 0 500]).result =
      Except.ok (computePageSlices (SlicerOptions.mk 876 56 28) 820 [CardRect.mk 0 500]) ∧
    (computePageSlices (SlicerOptions.mk 876 56 28) 820 [CardRect.mk 0 500]).map
        (fun s => (s.yStartPx, s.yEndPx)) = [(0, 0)] := by
  have hcap : pageSliceHeightPx (SlicerOptions.mk 876 56 28) 820 = 0 := by
    unfold pageSliceHeightPx
    norm_num
  refine ⟨hcap, rfl, ?_⟩
  unfold computePageSlices
  rw [hcap]
  simp [computeSlicesLoop_cons, computeSlicesLoop_nil, fitsOnPage, cardBottomPx]

/-- C4 (amended): when the computed page capacity is zero or negative, no
error is raised and no check exists: the slicer still runs, every block
overflows, and each is emitted through the oversized-block fallback as one
degenerate slice per block with `yEndPx = topPx + min(heightPx, cap) ≤ topPx`;
`generatePDF` returns ok on such geometry. -/
theorem claim_C4_amended (opts : SlicerOptions) (w : Int) (items : List ContentItem)
    (rects : List CardRect) (cap : Int) (geo : SliceGeometry)
    (hcap : cap ≤ 0) (hp : allHeightsPos rects = true) (hne : items ≠ []) :
    computeSlicesLoop cap geo rects =
      rects.map (fun c => PageSlice.mk c.topPx (c.topPx + min c.heightPx cap) geo) ∧
    (generatePDF opts w items true true rects).result =
      Except.ok (computePageSlices opts w rects) := by
  refine ⟨computeSlicesLoop_nonpos_cap cap geo hcap rects hp, ?_⟩
  unfold generatePDF
  rw [if_neg (fun h => hne (List.length_eq_zero.mp h))]
  simp

/-- C6: the public entry point `generatePDF` fails with the empty-input error
(`"No items to export."`) when the item list is empty, and on this path the
off-screen wrapper surface is never allocated (the check precedes
`_buildContinuousDocument`). -/
theorem claim_C6_empty_input (opts : SlicerOptions) (w : Int) (t c : Bool)
    (rects : List CardRect) (items : List ContentItem) (h : items = []) :
    (generatePDF opts w items t c rects).result = Except.error GenError.emptyInput ∧
    (generatePDF opts w items t c rects).surfaceAllocated = false := by
  subst h
  exact ⟨rfl, rfl⟩

/-- C7: slicing is deterministic — `_computePageSlices` is a pure function of
the card rectangles and the geometry configuration, so identical inputs give
an identical slice list: same list, same count, same boundaries. -/
theorem claim_C7_deterministic (o₁ o₂ : SlicerOptions) (w₁ w₂ : Int)
    (r₁ r₂ : List CardRect) (ho : o₁ = o₂) (hw : w₁ = w₂) (hr : r₁ = r₂) :
    computePageSlices o₁ w₁ r₁ = computePageSlices o₂ w₂ r₂ ∧
    (computePageSlices o₁ w₁ r₁).length = (computePageSlices o₂ w₂ r₂).length ∧
    (computePageSlices o₁ w₁ r₁).map (fun s => (s.yStartPx, s.yEndPx)) =
      (computePageSlices o₂ w₂ r₂).map (fun s => (s.yStartPx, s.yEndPx)) := by
  subst ho
  subst hw
  subst hr
  exact ⟨rfl, rfl, rfl⟩

/-- C8: the scale factor is computed once as
`pxToPt = usableWidthPt / canvasWidth` with
`pageCapacityPx = floor(usableHeightPt / pxToPt)`; every slice carries that
same factor, and the assembler places each slice image at exactly the usable
page width and at height `sliceHeightPx * pxToPt`, which preserves the
slice's width-to-height proportion: `widthPt * sliceHeightPx = heightPt * canvasWidth`. -/
theorem claim_C8_unit_conversion (opts : SlicerOptions) (w : Int) (cards : List CardRect)
    (hw : 0 < w) :
    computePageSlices opts w cards =
      computeSlicesLoop (pageSliceHeightPx opts w)
        (SliceGeometry.mk (opts.pageWidthPt - 2 * opts.pageMarginPt)
          ((opts.pageWidthPt - 2 * opts.pageMarginPt) / (w : ℚ))
          opts.pageMarginPt (opts.pageHeightPt - 2 * opts.pageMarginPt)) cards ∧
    pageSliceHeightPx opts w =
      ⌊(opts.pageHeightPt - 2 * opts.pageMarginPt) /
        ((opts.pageWidthPt - 2 * opts.pageMarginPt) / (w : ℚ))⌋ ∧
    (∀ s ∈ computePageSlices opts w cards,
      s.geo.pxToPt = (opts.pageWidthPt - 2 * opts.pageMarginPt) / (w : ℚ) ∧
      s.geo.usableWidthPt = opts.pageWidthPt - 2 * opts.pageMarginPt ∧
      (placeSliceImage s).widthPt = s.geo.usableWidthPt ∧
      (placeSliceImage s).heightPt = ((s.yEndPx - s.yStartPx : Int) : ℚ) * s.geo.pxToPt ∧
      (placeSliceImage s).widthPt * ((s.yEndPx - s.yStartPx : Int) : ℚ) =
        (placeSliceImage s).heightPt * (w : ℚ)) ∧
    buildPdfFromSlices (computePageSlices opts w cards) =
      (computePageSlices opts w cards).map placeSliceImage := by
  refine ⟨rfl, rfl, ?_, rfl⟩
  intro s hs
  have hs' : s ∈ computeSlicesLoop (pageSliceHeightPx opts w)
      (SliceGeometry.mk (opts.pageWidthPt - 2 * opts.pageMarginPt)
        ((opts.pageWidthPt - 2 * opts.pageMarginPt) / (w : ℚ))
        opts.pageMarginPt (opts.pageHeightPt - 2 * opts.pageMarginPt)) cards := hs
  have hgeo : s.geo = SliceGeometry.mk (opts.pageWidthPt - 2 * opts.pageMarginPt)
      ((opts.pageWidthPt - 2 * opts.pageMarginPt) / (w : ℚ))
      opts.pageMarginPt (opts.pageHeightPt - 2 * opts.pageMarginPt) :=
    computeSlicesLoop_geo _ _ cards.length cards (le_refl _) s hs'
  have hpx : s.geo.pxToPt = (opts.pageWidthPt - 2 * opts.pageMarginPt) / (w : ℚ) := by
    rw [hgeo]
  have huw : s.geo.usableWidthPt = opts.pageWidthPt - 2 * opts.pageMarginPt := by
    rw [hgeo]
  refine ⟨hpx, huw, rfl, rfl, ?_⟩
  have hw0 : ((w : ℚ)) ≠ 0 := Int.cast_ne_zero.mpr (ne_of_gt hw)
  show s.geo.usableWidthPt * ((s.yEndPx - s.yStartPx : Int) : ℚ) =
    (((s.yEndPx - s.yStartPx : Int) : ℚ) * s.geo.pxToPt) * (w : ℚ)
  rw [huw, hpx]
  field_simp
  ring

/-- C9 (counterexample): with a non-empty item list and a rejecting
typesetting stage, `generatePDF` propagates the error without reaching
`renderHost.removeChild(wrapper)`: the wrapper surface is allocated but never
released on this exit path (there is no try/finally). -/
theorem claim_C9_counterexample :
    (generatePDF (SlicerOptions.mk 876 556 28) 820
        [ContentItem.mk (some "theorem") none (some "x") none] false true
        [CardRect.mk 0 500]).surfaceAllocated = true ∧
    (generatePDF (SlicerOptions.mk 876 556 28) 820
        [ContentItem.mk (some "theorem") none (some "x") none] false true
        [CardRect.mk 0 500]).surfaceReleased = false ∧
    (generatePDF (SlicerOptions.mk 876 556 28) 820
        [ContentItem.mk (some "theorem") none (some "x") none] false true
        [CardRect.mk 0 500]).result = Except.error GenError.typesetFailure :=
  ⟨rfl, rfl, rfl⟩

/-- C9 (amended): the wrapper surface is released only on the success path —
it is released iff the item list is non-empty and both awaited external
stages (typesetting/stabilization and capture) succeed; on those error paths
the surface stays allocated.  (Slicing itself cannot fail, so there is no
slicing error path.) -/
theorem claim_C9_amended (opts : SlicerOptions) (w : Int) (items : List ContentItem)
    (t c : Bool) (rects : List CardRect) :
    ((generatePDF opts w items t c rects).surfaceReleased = true ↔
      (items ≠ [] ∧ t = true ∧ c = true)) ∧
    ((generatePDF opts w items t c rects).surfaceAllocated = true ↔ items ≠ []) := by
  unfold generatePDF
  cases items with
  | nil => simp
  | cons i r => cases t <;> cases c <;> simp

/-! ## Witnesses: the claims instantiated at concrete inputs -/

/-- C1 witness at Scenario A: the first slice's start (pixel 0) does not fall
strictly inside the second block's rectangle. -/
theorem claim_C1_witness :
    (0 : Int) ≤ 24 ∧ consecFromB 24 0 cardsA = true ∧ allHeightsPos cardsA = true ∧
    ¬((CardRect.mk 524 500).topPx < (PageSlice.mk 0 1024 geoW).yStartPx ∧
      (PageSlice.mk 0 1024 geoW).yStartPx < cardBottomPx (CardRect.mk 524 500)) :=
  ⟨by decide, by decide, by decide,
    ((claim_C1_slice_boundaries 24 1100 geoW cardsA (by decide) (by decide) (by decide)).1
        (PageSlice.mk 0 1024 geoW)
        (by simp [computeSlicesLoop_cons, computeSlicesLoop_nil, fitsOnPage, cardBottomPx,
              lastBottomPx, cardsA, List.takeWhile, List.dropWhile])).1
      (CardRect.mk 524 500) (by simp [cardsA])⟩

/-- C2 (amended) witness at Scenario A: the slice heights plus one inter-page
gap sum to the 1548px surface height. -/
theorem claim_C2_amended_witness :
    (0 : Int) ≤ 24 ∧ consecFromB 24 0 cardsA = true ∧ allHeightsPos cardsA = true ∧
    allFitB 1100 cardsA = true ∧ cardsA ≠ [] ∧
    sliceHeightsSum (computeSlicesLoop 1100 geoW cardsA) +
        24 * (((computeSlicesLoop 1100 geoW cardsA).length : Int) - 1) =
      totalSurfaceHeightPx cardsA :=
  ⟨by decide, by decide, by decide, by decide, by decide,
    (claim_C2_amended 24 1100 geoW cardsA (by decide) (by decide) (by decide)
        (by decide) (by decide)).1⟩

/-- C3 witness, Scenario A: capacity 1100 packs blocks 1 and 2 on page one
(slice `[0, 1024]`) and block 3 on page two (slice `[1048, 1548]`), and the
packing is maximal between consecutive pages. -/
theorem claim_C3_witness :
    (0 : Int) ≤ 24 ∧ consecFromB 24 0 cardsA = true ∧ allHeightsPos cardsA = true ∧
    List.Chain' (fun s s' => ∃ c ∈ cardsA, s'.yStartPx = c.topPx ∧
      1100 < cardBottomPx c - s.yStartPx) (computeSlicesLoop 1100 geoW cardsA) ∧
    (computeSlicesLoop 1100 geoW cardsA).map (fun s => (s.yStartPx, s.yEndPx)) =
      [(0, 1024), (1048, 1548)] :=
  ⟨by decide, by decide, by decide,
    claim_C3_greedy_maximal 24 1100 geoW cardsA (by decide) (by decide) (by decide),
    by simp [computeSlicesLoop_cons, computeSlicesLoop_nil, fitsOnPage, cardBottomPx,
      lastBottomPx, cardsA, List.takeWhile, List.dropWhile]⟩

/-- C4 (amended) witness: capacity 0 produces one degenerate fallback slice
for the single 500px block and `generatePDF` still returns ok. -/
theorem claim_C4_amended_witness :
    (0 : Int) ≤ 0 ∧ allHeightsPos [CardRect.mk 0 500] = true ∧
    ([ContentItem.mk (some "theorem") none (some "x") none] : List ContentItem) ≠ [] ∧
    computeSlicesLoop 0 geoW [CardRect.mk 0 500] =
      [CardRect.mk 0 500].map
        (fun c => PageSlice.mk c.topPx (c.topPx + min c.heightPx 0) geoW) ∧
    (generatePDF (SlicerOptions.mk 876 56 28) 820
        [ContentItem.mk (some "theorem") none (some "x") none] true true
        [CardRect.mk 0 500]).result =
      Except.ok (computePageSlices (SlicerOptions.mk 876 56 28) 820 [CardRect.mk 0 500]) :=
  ⟨by decide, by decide, by decide,
    (claim_C4_amended (SlicerOptions.mk 876 56 28) 820
        [ContentItem.mk (some "theorem") none (some "x") none] [CardRect.mk 0 500] 0 geoW
        (by decide) (by decide) (by decide)).1,
    (claim_C4_amended (SlicerOptions.mk 876 56 28) 820
        [ContentItem.mk (some "theorem") none (some "x") none] [CardRect.mk 0 500] 0 geoW
        (by decide) (by decide) (by decide)).2⟩

/-- C5 witness, Scenario B: a single 2000px block with capacity 1200 yields
exactly one clipped fallback slice `[0, 1200]` of height 1200. -/
theorem claim_C5_witness :
    (0 : Int) ≤ 24 ∧ consecFromB 24 0 [CardRect.mk 0 2000] = true ∧
    allHeightsPos [CardRect.mk 0 2000] = true ∧ 1200 < (CardRect.mk 0 2000).heightPx ∧
    (∃ s ∈ computeSlicesLoop 1200 geoW [CardRect.mk 0 2000],
      s.yStartPx = (CardRect.mk 0 2000).topPx ∧
      s.yEndPx = (CardRect.mk 0 2000).topPx + 1200 ∧
      ∀ d ∈ [CardRect.mk 0 2000],
        ¬(s.yStartPx ≤ d.topPx ∧ cardBottomPx d ≤ s.yEndPx)) ∧
    (computeSlicesLoop 1200 geoW [CardRect.mk 0 2000]).map
        (fun s => (s.yStartPx, s.yEndPx)) = [(0, 1200)] :=
  ⟨by decide, by decide, by decide, by decide,
    claim_C5_oversized_clipped 24 1200 geoW [CardRect.mk 0 2000] (by decide) (by decide)
      (by decide) (CardRect.mk 0 2000) (by simp) (by decide),
    by simp [computeSlicesLoop_cons, computeSlicesLoop_nil, fitsOnPage, cardBottomPx]⟩

/-- C6 witness, Scenario C: the empty item list makes `generatePDF` fail with
the empty-input error and no surface is allocated. -/
theorem claim_C6_witness :
    (([] : List ContentItem) = []) ∧
    (generatePDF (SlicerOptions.mk 876 556 28) 820 [] true true []).result =
      Except.error GenError.emptyInput ∧
    (generatePDF (SlicerOptions.mk 876 556 28) 820 [] true true []).surfaceAllocated =
      false :=
  ⟨rfl, claim_C6_empty_input (SlicerOptions.mk 876 556 28) 820 true true [] [] rfl⟩

/-- C7 witness: two runs on identical concrete inputs give identical slices. -/
theorem claim_C7_witness :
    computePageSlices (SlicerOptions.mk 876 556 28) 820 cardsA =
      computePageSlices (SlicerOptions.mk 876 556 28) 820 cardsA ∧
    (computePageSlices (SlicerOptions.mk 876 556 28) 820 cardsA).length =
      (computePageSlices (SlicerOptions.mk 876 556 28) 820 cardsA).length ∧
    (computePageSlices (SlicerOptions.mk 876 556 28) 820 cardsA).map
        (fun s => (s.yStartPx, s.yEndPx)) =
      (computePageSlices (SlicerOptions.mk 876 556 28) 820 cardsA).map
        (fun s => (s.yStartPx, s.yEndPx)) :=
  claim_C7_deterministic (SlicerOptions.mk 876 556 28) (SlicerOptions.mk 876 556 28)
    820 820 cardsA cardsA rfl rfl rfl

/-- C8 witness at a concrete A4-like geometry and Scenario A's cards. -/
theorem claim_C8_witness :
    (0 : Int) < 820 ∧
    computePageSlices (SlicerOptions.mk 876 556 28) 820 cardsA =
      computeSlicesLoop (pageSliceHeightPx (SlicerOptions.mk 876 556 28) 820)
        (SliceGeometry.mk ((876 : ℚ) - 2 * 28) (((876 : ℚ) - 2 * 28) / ((820 : Int) : ℚ))
          28 ((556 : ℚ) - 2 * 28)) cardsA ∧
    buildPdfFromSlices (computePageSlices (SlicerOptions.mk 876 556 28) 820 cardsA) =
      (computePageSlices (SlicerOptions.mk 876 556 28) 820 cardsA).map placeSliceImage :=
  ⟨by decide,
    (claim_C8_unit_conversion (SlicerOptions.mk 876 556 28) 820 cardsA (by decide)).1,
    (claim_C8_unit_conversion (SlicerOptions.mk 876 556 28) 820 cardsA (by decide)).2.2.2⟩

/-- C9 (amended) witness: on the all-success path with a non-empty item list
the surface is both allocated and released. -/
theorem claim_C9_amended_witness :
    ((generatePDF (SlicerOptions.mk 876 556 28) 820
        [ContentItem.mk (some "theorem") none (some "x") none] true true
        [CardRect.mk 0 500]).surfaceReleased = true ↔
      ([ContentItem.mk (some "theorem") none (some "x") none] ≠ ([] : List ContentItem) ∧
        true = true ∧ true = true)) ∧
    ((generatePDF (SlicerOptions.mk 876 556 28) 820
        [ContentItem.mk (some "theorem") none (some "x") none] true true
        [CardRect.mk 0 500]).surfaceAllocated = true ↔
      [ContentItem.mk (some "theorem") none (some "x") none] ≠ ([] : List ContentItem)) :=
  claim_C9_amended (SlicerOptions.mk 876 556 28) 820
    [ContentItem.mk (some "theorem") none (some "x") none] true true [CardRect.mk 0 500]

/-- C10 witness at Scenario A: two slices for three blocks, non-empty output. -/
theorem claim_C10_witness :
    (computeSlicesLoop 1100 geoW cardsA).length ≤ cardsA.length ∧
    (cardsA = [] ∨ computeSlicesLoop 1100 geoW cardsA ≠ []) :=
  ⟨(claim_C10_progress 1100 geoW cardsA).1, (claim_C10_progress 1100 geoW cardsA).2.1⟩

end PdfGen
